import Mathlib

/-!
Verification of the frame-to-text renderer and keyboard-event queue of
`doomgeneric_ascii.c` (doom-ascii-pdf), via a shallow embedding in Lean 4.

The embedding translates the C source directly:
* the glyph ramp `grad` and the brightness-to-glyph index of `DG_DrawFrame`;
* the character stream emitted by `DG_DrawFrame`'s row/column loops;
* the ring-buffer key queue (`addKeyToQueue` / `DG_GetKey`) with its
  `s_KeyQueueWriteIndex` / `s_KeyQueueReadIndex` cursors mod `KEYQUEUE_SIZE`;
* the hold-key hack (`pressKey` / `decrementKeyCtrs`, `keyHold` counters).
-/

namespace DoomAscii

/-! ## Frame renderer -/

/-- `GRAD_LEN` from the source: `#define GRAD_LEN 70u`. -/
def GRAD_LEN : Nat := 70

/-- The glyph ramp string
`" .'`^\",:;Il!i><~+_-?][}{1)(|\\/tfjrxnuvczXYUJCLQ0OZmwqpdbkhao*#MW&8%B@$"`
from the source, as a list of characters. -/
def grad : List Char :=
  " .'`^\",:;Il!i><~+_-?][\x7d\x7b1)(|\\/tfjrxnuvczXYUJCLQ0OZmwqpdbkhao*#MW&8%B@$".toList

/-- One RGBA pixel of `DG_ScreenBuffer` (`struct color_t`, four 8-bit fields). -/
structure color_t where
  b : Nat
  g : Nat
  r : Nat
  a : Nat
deriving DecidableEq

/-- The glyph index computed in `DG_DrawFrame`:
`(pixel->r + pixel->g + pixel->b) * GRAD_LEN / 766u` applied to a brightness
`bright = r + g + b`. -/
def gradIndex (bright : Nat) : Nat :=
  bright * GRAD_LEN / 766

/-- The glyph chosen for a pixel: `grad[(pixel->r + pixel->g + pixel->b) * GRAD_LEN / 766u]`. -/
def glyph (p : color_t) : Char :=
  grad.getD (gradIndex (p.r + p.g + p.b)) ' '

/-- The index formula as the spec writes it, `brightness * RAMP_LEN / (3 * 255)`.
Modelled from the spec: this is the spec-side variant of the formula, kept
separate from `gradIndex` (the code's `/ 766u`) to compare the two. -/
def specGradIndex (bright : Nat) : Nat :=
  bright * GRAD_LEN / (3 * 255)

/-- The character stream produced by the nested loops of `DG_DrawFrame`:
for each `row < resy`, for each `col < resx`, the pixel's glyph is written
twice, and a newline ends each row.  `pix` is `DG_ScreenBuffer` as a flat
row-major array, read at `row * resx + col` (the code's incrementing
`pixel` pointer). -/
def drawFrameChars (resy resx : Nat) (pix : Nat → color_t) : List Char :=
  (List.range resy).flatMap (fun row =>
    ((List.range resx).flatMap (fun col =>
      [glyph (pix (row * resx + col)), glyph (pix (row * resx + col))])) ++ ['\n'])

/-- `DOOMGENERIC_RESX = 160` (doomgeneric.c). -/
def DOOMGENERIC_RESX : Nat := 160

/-- `DOOMGENERIC_RESY = 100` (doomgeneric.c). -/
def DOOMGENERIC_RESY : Nat := 100

/-- A pure-black pixel (all channels zero). -/
def blackPixel : color_t := ⟨0, 0, 0, 0⟩

/-! ## Renderer lemmas -/

theorem grad_length : grad.length = 70 := by decide

theorem gradIndex_lt (bright : Nat) (h : bright ≤ 765) : gradIndex bright < 70 := by
  unfold gradIndex GRAD_LEN
  omega

theorem glyph_ne_newline (p : color_t) : glyph p ≠ '\n' := by
  unfold glyph
  rcases Nat.lt_or_ge (gradIndex (p.r + p.g + p.b)) grad.length with h | h
  · have : ∀ i, i < grad.length → grad.getD i ' ' ≠ '\n' := by decide
    exact this _ h
  · rw [List.getD_eq_default _ _ h]
    decide

theorem rowChars_count (g : Nat → Char) (hg : ∀ i, g i ≠ '\n') (w : Nat) :
    ((List.range w).flatMap (fun col => [g col, g col])).count '\n' = 0 := by
  rw [List.count_eq_zero]
  simp only [List.mem_flatMap, List.mem_range, List.mem_cons, List.not_mem_nil, or_false,
    not_exists, not_and, not_or]
  intro i _
  exact ⟨fun h => hg i h.symm, fun h => hg i h.symm⟩

theorem rowChars_length (g : Nat → Char) (w : Nat) :
    ((List.range w).flatMap (fun col => [g col, g col])).length = 2 * w := by
  induction w with
  | zero => simp
  | succ m ih =>
    rw [List.range_succ, List.flatMap_append, List.length_append, ih]
    simp only [List.flatMap_cons, List.flatMap_nil, List.append_nil]
    simp
    omega

theorem drawFrame_count_newline (resy resx : Nat) (pix : Nat → color_t) :
    (drawFrameChars resy resx pix).count '\n' = resy := by
  unfold drawFrameChars
  induction resy with
  | zero => simp
  | succ n ih =>
    rw [List.range_succ, List.flatMap_append, List.count_append, ih]
    simp only [List.flatMap_cons, List.flatMap_nil, List.append_nil, List.count_append]
    rw [rowChars_count (fun col => glyph (pix (n * resx + col)))
      (fun i => glyph_ne_newline (pix (n * resx + i))) resx]
    simp

theorem drawFrame_length (resy resx : Nat) (pix : Nat → color_t) :
    (drawFrameChars resy resx pix).length = 2 * resx * resy + resy := by
  unfold drawFrameChars
  induction resy with
  | zero => simp
  | succ n ih =>
    rw [List.range_succ, List.flatMap_append, List.length_append, ih]
    simp only [List.flatMap_cons, List.flatMap_nil, List.append_nil, List.length_append]
    rw [rowChars_length (fun col => glyph (pix (n * resx + col))) resx]
    simp only [List.length_singleton]
    ring

theorem rowChars_const_replicate (n : Nat) (c : Char) :
    ((List.range n).flatMap (fun _ => [c, c])) = List.replicate (2 * n) c := by
  induction n with
  | zero => simp
  | succ m ih =>
    rw [List.range_succ, List.flatMap_append, ih]
    have h2 : 2 * (m + 1) = 2 * m + 2 := by ring
    rw [h2, List.replicate_add]
    simp

theorem range_flatMap_const {α : Type} (n : Nat) (l : List α) :
    ((List.range n).flatMap (fun _ => l)) = (List.replicate n l).flatten := by
  induction n with
  | zero => simp
  | succ m ih =>
    rw [List.range_succ, List.flatMap_append, ih]
    have h1 : List.replicate (m + 1) l = List.replicate m l ++ [l] := by
      rw [List.replicate_add]
      simp
    rw [h1, List.flatten_append]
    simp

/-! ## Claim theorems: renderer arithmetic -/

/-- C2: for every brightness `b = R + G + B` in `[0, 765]`, the glyph index
`b * GRAD_LEN / 766` is in bounds for the 70-entry ramp: `0 ≤ index < grad.length`. -/
theorem C2_grad_index_in_bounds (bright : Nat) (h : bright ≤ 765) :
    gradIndex bright < grad.length := by
  rw [grad_length]
  exact gradIndex_lt bright h

/-- Witness for C2 at the extreme brightness 765. -/
theorem C2_grad_index_in_bounds_witness :
    gradIndex 765 < grad.length :=
  C2_grad_index_in_bounds 765 (by decide)

/-- C3: brightness 0 maps to ramp index 0 and brightness 765 (pure white) maps
to the last ramp index `grad.length - 1 = 69`, without overflowing the ramp. -/
theorem C3_grad_index_endpoints :
    gradIndex 0 = 0 ∧ gradIndex 765 = grad.length - 1 ∧ grad.length = 70 := by
  refine ⟨by decide, by decide, by decide⟩

/-- C4 counterexample: the spec's formula `b * RAMP_LEN / (3 * 255)` and the
code's `b * RAMP_LEN / 766` disagree at brightness 153 (14 versus 13), so the
two are not equivalent. -/
theorem C4_formulas_disagree :
    specGradIndex 153 ≠ gradIndex 153 := by decide

/-- C4 (amended): for every brightness `b` in `[0, 765]` the code's index
`b * GRAD_LEN / 766` is at most the spec's `b * GRAD_LEN / (3 * 255)`, and the
two differ by at most one; they are not everywhere equal (see the
counterexample at `b = 153`, and at `b = 765` the spec's formula reaches 70,
one past the end of the ramp). -/
theorem C4_formulas_within_one (bright : Nat) (h : bright ≤ 765) :
    gradIndex bright ≤ specGradIndex bright ∧
      specGradIndex bright ≤ gradIndex bright + 1 := by
  unfold gradIndex specGradIndex GRAD_LEN
  omega

/-- Witness for C4 (amended) at brightness 765, where the two formulas differ. -/
theorem C4_formulas_within_one_witness :
    gradIndex 765 ≤ specGradIndex 765 ∧ specGradIndex 765 ≤ gradIndex 765 + 1 :=
  C4_formulas_within_one 765 (by decide)

/-- C5: one render pass over a `resy x resx` buffer emits exactly `resy` line
terminators and exactly `2 * resx * resy` glyph characters (each pixel's glyph
twice, row-major); and an all-black 160x100 buffer renders as 100 lines, each
320 copies of the ramp's first character followed by a newline. -/
theorem C5_drawFrame_counts_and_black_scenario (resy resx : Nat) (pix : Nat → color_t) :
    (drawFrameChars resy resx pix).count '\n' = resy ∧
    (drawFrameChars resy resx pix).length = 2 * resx * resy + resy ∧
    drawFrameChars DOOMGENERIC_RESY DOOMGENERIC_RESX (fun _ => blackPixel) =
      (List.replicate 100 (List.replicate 320 (grad.getD 0 ' ') ++ ['\n'])).flatten := by
  refine ⟨drawFrame_count_newline resy resx pix, drawFrame_length resy resx pix, ?_⟩
  have hg : glyph blackPixel = grad.getD 0 ' ' := by decide
  rw [← hg]
  simp only [drawFrameChars, DOOMGENERIC_RESX, DOOMGENERIC_RESY]
  rw [rowChars_const_replicate 160 (glyph blackPixel)]
  rw [range_flatMap_const 100 (List.replicate (2 * 160) (glyph blackPixel) ++ ['\n'])]

/-! ## Key event queue

The ring buffer from the source:

* `#define KEYQUEUE_SIZE 16`, `static unsigned short s_KeyQueue[KEYQUEUE_SIZE]`,
  cursors `s_KeyQueueWriteIndex` / `s_KeyQueueReadIndex`, both starting at 0;
* `addKeyToQueue(pressed, key)` stores `(pressed << 8) | key` (an
  `unsigned short`) at the write cursor and advances it mod 16;
* `DG_GetKey(pressed, doomKey)` returns 0 when the cursors are equal,
  otherwise reads the slot at the read cursor, advances it mod 16, and writes
  `keyData >> 8` and `keyData & 0xFF` through the out-pointers.
-/

/-- `#define KEYQUEUE_SIZE 16`. -/
def KEYQUEUE_SIZE : Nat := 16

/-- The key-queue globals: `s_KeyQueue`, `s_KeyQueueWriteIndex`,
`s_KeyQueueReadIndex`.  `slots i` is `s_KeyQueue[i]` (only indices below 16
are ever read or written). -/
structure KQ where
  slots : Nat → Nat
  wr : Nat
  rd : Nat

/-- The queue state at startup: zero-initialized statics. -/
def initQueue : KQ := { slots := fun _ => 0, wr := 0, rd := 0 }

/-- `addKeyToQueue(int pressed, unsigned char key)`:
`keyData = (pressed << 8) | key` stored as `unsigned short` at the write
cursor, which then advances mod `KEYQUEUE_SIZE`. -/
def addKeyToQueue (pressed key : Nat) (q : KQ) : KQ :=
  { slots := fun i => if i = q.wr then (Nat.lor (pressed <<< 8) key) % 65536 else q.slots i
    wr := (q.wr + 1) % KEYQUEUE_SIZE
    rd := q.rd }

/-- `DG_GetKey(int *pressed, unsigned char *doomKey)`: `none` (return 0,
out-pointers untouched) when the cursors coincide; otherwise the slot at the
read cursor is decoded as `(keyData >> 8, keyData & 0xFF)` and the read
cursor advances mod `KEYQUEUE_SIZE`. -/
def DG_GetKey (q : KQ) : Option (Nat × Nat) × KQ :=
  if q.rd = q.wr then (none, q)
  else
    ((some (q.slots q.rd >>> 8, Nat.land (q.slots q.rd) 0xFF)),
     { q with rd := (q.rd + 1) % KEYQUEUE_SIZE })

/-- Enqueue a list of events, `(pressed?, key)` pairs, in order — repeated
`addKeyToQueue` calls with the C call sites' `1`/`0` pressed argument. -/
def enqueueList (q : KQ) (es : List (Bool × Nat)) : KQ :=
  es.foldl (fun q e => addKeyToQueue (if e.1 then 1 else 0) e.2 q) q

/-- Call `DG_GetKey` `n` times, collecting each call's result
(`none` = returned 0). -/
def dequeueN (q : KQ) : Nat → List (Option (Nat × Nat)) × KQ
  | 0 => ([], q)
  | n + 1 =>
    let r := DG_GetKey q
    let rest := dequeueN r.2 n
    (r.1 :: rest.1, rest.2)

/-- A queue operation: an `addKeyToQueue` call (arbitrary arguments) or a
`DG_GetKey` call. -/
inductive QOp where
  | enq (pressed key : Nat)
  | deq
deriving DecidableEq

/-- Apply one queue operation to the state. -/
def applyQOp (q : KQ) : QOp → KQ
  | .enq p k => addKeyToQueue p k q
  | .deq => (DG_GetKey q).2

/-- Run a sequence of queue operations from the initial state. -/
def runQOps (ops : List QOp) : KQ :=
  ops.foldl applyQOp initQueue

/-- The value the queue stores for an event, as `addKeyToQueue` computes it. -/
def encodeEvent (e : Bool × Nat) : Nat :=
  (Nat.lor ((if e.1 then 1 else 0) <<< 8) e.2) % 65536

/-- The `(pressed, key)` ints `DG_GetKey` hands back for an event. -/
def eventView (e : Bool × Nat) : Nat × Nat :=
  ((if e.1 then 1 else 0), e.2)

/-! ## Queue lemmas -/

theorem get_append_left {α : Type} (l1 l2 : List α) (i : Nat) (h1 : i < l1.length)
    (h2 : i < (l1 ++ l2).length) : (l1 ++ l2).get ⟨i, h2⟩ = l1.get ⟨i, h1⟩ := by
  induction l1 generalizing i with
  | nil => exact absurd h1 (Nat.not_lt_zero i)
  | cons a t ih =>
    cases i with
    | zero => rfl
    | succ j => exact ih j (Nat.lt_of_succ_lt_succ h1) (by simpa using Nat.lt_of_succ_lt_succ h2)

theorem get_append_last {α : Type} (l : List α) (a : α) (h : l.length < (l ++ [a]).length) :
    (l ++ [a]).get ⟨l.length, h⟩ = a := by
  induction l with
  | nil => rfl
  | cons b t ih => exact ih (by simp)

set_option maxRecDepth 4096 in
theorem decode_encode_false (k : Nat) (hk : k < 256) :
    (((Nat.lor (0 <<< 8) k) % 65536) >>> 8, Nat.land ((Nat.lor (0 <<< 8) k) % 65536) 0xFF)
      = (0, k) := by
  revert k hk
  decide

set_option maxRecDepth 4096 in
theorem decode_encode_true (k : Nat) (hk : k < 256) :
    (((Nat.lor (1 <<< 8) k) % 65536) >>> 8, Nat.land ((Nat.lor (1 <<< 8) k) % 65536) 0xFF)
      = (1, k) := by
  revert k hk
  decide

theorem decode_encodeEvent (e : Bool × Nat) (he : e.2 < 256) :
    (encodeEvent e >>> 8, Nat.land (encodeEvent e) 0xFF) = eventView e := by
  obtain ⟨b, k⟩ := e
  cases b
  · simpa [encodeEvent, eventView] using decode_encode_false k he
  · simpa [encodeEvent, eventView] using decode_encode_true k he

/-- Representation invariant: queue state `q` holds exactly the pending events
`pend`, oldest first, starting at the read cursor. -/
def qRep (q : KQ) (pend : List (Bool × Nat)) : Prop :=
  q.rd < 16 ∧ q.wr < 16 ∧ pend.length ≤ 15 ∧
  q.wr = (q.rd + pend.length) % 16 ∧
  (∀ e ∈ pend, e.2 < 256) ∧
  ∀ i, ∀ h : i < pend.length, q.slots ((q.rd + i) % 16) = encodeEvent (pend.get ⟨i, h⟩)

theorem qRep_enq (q : KQ) (pend : List (Bool × Nat)) (e : Bool × Nat)
    (hq : qRep q pend) (hlen : pend.length ≤ 14) (he : e.2 < 256) :
    qRep (addKeyToQueue (if e.1 then 1 else 0) e.2 q) (pend ++ [e]) := by
  obtain ⟨h1, h2, _, h4, h5, h6⟩ := hq
  refine ⟨h1, Nat.mod_lt _ (by decide), by simp; omega, by simp [addKeyToQueue, KEYQUEUE_SIZE]; omega,
    ?_, ?_⟩
  · intro x hx
    rcases List.mem_append.mp hx with hx | hx
    · exact h5 x hx
    · rw [List.mem_singleton.mp hx]; exact he
  · intro i hi
    simp only [List.length_append, List.length_singleton] at hi
    simp only [addKeyToQueue]
    rcases Nat.lt_or_ge i pend.length with hlt | hge
    · have hne : (q.rd + i) % 16 ≠ q.wr := by
        rw [h4]
        omega
      rw [if_neg hne, h6 i hlt, get_append_left pend [e] i hlt]
    · have hieq : i = pend.length := by omega
      subst hieq
      have heq : (q.rd + pend.length) % 16 = q.wr := h4.symm
      rw [if_pos heq, get_append_last pend e]
      rfl

theorem qRep_deq (q : KQ) (e : Bool × Nat) (pend : List (Bool × Nat))
    (hq : qRep q (e :: pend)) :
    DG_GetKey q = (some (eventView e),
      { q with rd := (q.rd + 1) % KEYQUEUE_SIZE }) ∧
    qRep { q with rd := (q.rd + 1) % KEYQUEUE_SIZE } pend := by
  obtain ⟨h1, h2, h3, h4, h5, h6⟩ := hq
  simp only [List.length_cons] at h3 h4
  have hne : q.rd ≠ q.wr := by
    rw [h4]
    omega
  have hslot : q.slots q.rd = encodeEvent e := by
    have := h6 0 (Nat.succ_pos pend.length)
    simpa [Nat.mod_eq_of_lt h1] using this
  constructor
  · unfold DG_GetKey
    rw [if_neg hne, hslot]
    rw [decode_encodeEvent e (h5 e (List.mem_cons_self e pend))]
  · refine ⟨Nat.mod_lt _ (by decide), h2, by omega, by simp [KEYQUEUE_SIZE]; omega,
      fun x hx => h5 x (List.mem_cons_of_mem e hx), ?_⟩
    intro i hi
    have harg : ((q.rd + 1) % KEYQUEUE_SIZE + i) % 16 = (q.rd + (i + 1)) % 16 := by
      simp only [KEYQUEUE_SIZE]
      omega
    simp only [harg]
    exact h6 (i + 1) (Nat.succ_lt_succ hi)

theorem dequeueN_rep (pend : List (Bool × Nat)) (q : KQ) (hq : qRep q pend) :
    (dequeueN q pend.length).1 = pend.map (fun e => some (eventView e)) ∧
    qRep (dequeueN q pend.length).2 [] := by
  induction pend generalizing q with
  | nil => exact ⟨rfl, hq⟩
  | cons e rest ih =>
    obtain ⟨hstep, hrep⟩ := qRep_deq q e rest hq
    obtain ⟨ho, hr⟩ := ih _ hrep
    simp only [List.length_cons, dequeueN, hstep, List.map_cons]
    exact ⟨by rw [ho], hr⟩

theorem qRep_enqList (es : List (Bool × Nat)) (pend : List (Bool × Nat)) (q : KQ)
    (hq : qRep q pend) (hlen : pend.length + es.length ≤ 15)
    (hval : ∀ e ∈ es, e.2 < 256) :
    qRep (enqueueList q es) (pend ++ es) := by
  induction es generalizing pend q with
  | nil => simpa using hq
  | cons e rest ih =>
    have h1 : qRep (addKeyToQueue (if e.1 then 1 else 0) e.2 q) (pend ++ [e]) := by
      apply qRep_enq q pend e hq (by simp at hlen; omega)
      exact hval e (List.mem_cons_self e rest)
    have h2 := ih (pend ++ [e]) _ h1
      (by simp only [List.length_append, List.length_singleton, List.length_cons,
            List.length_nil] at hlen ⊢; omega)
      (fun x hx => hval x (List.mem_cons_of_mem e hx))
    simpa [List.append_assoc] using h2

theorem qRep_init : qRep initQueue [] := by
  refine ⟨by decide, by decide, by decide, by decide, by simp, ?_⟩
  intro i h
  exact absurd h (Nat.not_lt_zero i)

/-! ## Claim theorems: key queue -/

/-- C1 counterexample: enqueueing 16 events (the full `KEYQUEUE_SIZE`) into the
empty queue makes the write cursor wrap onto the read cursor, so the 16
dequeues do not return the 16 events (every one reports empty). -/
theorem C1_counterexample_full_queue :
    (dequeueN (enqueueList initQueue ((List.range 16).map (fun i => (true, i)))) 16).1 ≠
      ((List.range 16).map (fun i => (true, i))).map (fun e => some (eventView e)) := by
  decide

/-- C1 (amended): for every sequence of `n ≤ 15` key events (`n` at most
`KEYQUEUE_SIZE - 1`; at `n = 16` the wrapped cursors make the queue report
empty), enqueueing them into the empty queue and dequeuing `n` times returns
the same `(pressed, key)` pairs in FIFO order, and one further dequeue
reports the queue empty. -/
theorem C1_fifo_roundtrip (es : List (Bool × Nat)) (hlen : es.length ≤ 15)
    (hval : ∀ e ∈ es, e.2 < 256) :
    (dequeueN (enqueueList initQueue es) es.length).1 =
      es.map (fun e => some (eventView e)) ∧
    (DG_GetKey (dequeueN (enqueueList initQueue es) es.length).2).1 = none := by
  have h1 := qRep_enqList es [] initQueue qRep_init (by simpa using hlen) hval
  simp only [List.nil_append] at h1
  obtain ⟨hout, hempty⟩ := dequeueN_rep es _ h1
  refine ⟨hout, ?_⟩
  obtain ⟨hr, _, _, h4, _, _⟩ := hempty
  have heq : (dequeueN (enqueueList initQueue es) es.length).2.rd =
      (dequeueN (enqueueList initQueue es) es.length).2.wr := by
    simp only [List.length_nil] at h4
    omega
  unfold DG_GetKey
  rw [if_pos heq]

/-- Witness for C1 (amended): one event `(pressed, 0x20)` round-trips and the
queue is empty afterward. -/
theorem C1_fifo_roundtrip_witness :
    (dequeueN (enqueueList initQueue [(true, 32)]) 1).1 = [some (1, 32)] ∧
    (DG_GetKey (dequeueN (enqueueList initQueue [(true, 32)]) 1).2).1 = none :=
  C1_fifo_roundtrip [(true, 32)] (by decide) (by decide)

theorem foldl_applyQOp_bounds (ops : List QOp) (q : KQ) (h1 : q.rd < 16) (h2 : q.wr < 16) :
    (ops.foldl applyQOp q).rd < 16 ∧ (ops.foldl applyQOp q).wr < 16 := by
  induction ops generalizing q with
  | nil => exact ⟨h1, h2⟩
  | cons op rest ih =>
    rw [List.foldl_cons]
    rcases op with ⟨p, k⟩ | _
    · exact ih _ h1 (Nat.mod_lt _ (by decide))
    · simp only [applyQOp, DG_GetKey]
      split
      · exact ih _ h1 h2
      · exact ih _ (Nat.mod_lt _ (by decide)) h2

/-- C9: after any sequence of `addKeyToQueue` / `DG_GetKey` calls from the
initial state, both cursors are in `[0, KEYQUEUE_SIZE)`, and `DG_GetKey`
reports the queue empty exactly when the cursors coincide. -/
theorem C9_cursor_invariant (ops : List QOp) :
    (runQOps ops).rd < KEYQUEUE_SIZE ∧ (runQOps ops).wr < KEYQUEUE_SIZE ∧
    ((DG_GetKey (runQOps ops)).1 = none ↔ (runQOps ops).rd = (runQOps ops).wr) := by
  obtain ⟨h1, h2⟩ := foldl_applyQOp_bounds ops initQueue (by decide) (by decide)
  refine ⟨h1, h2, ?_⟩
  unfold DG_GetKey
  split
  case isTrue h => simp [h]
  case isFalse h => simp [h]

/-- C10: dequeue on an empty queue is atomic: whenever the cursors coincide,
`DG_GetKey` returns 0 (`none` — the out-pointers are not written) and the
whole queue state, slots and both cursors, is unchanged. -/
theorem C10_empty_dequeue_atomic (q : KQ) (h : q.rd = q.wr) :
    DG_GetKey q = (none, q) := by
  unfold DG_GetKey
  rw [if_pos h]

/-- Witness for C10 at the initial queue state. -/
theorem C10_empty_dequeue_atomic_witness :
    DG_GetKey initQueue = (none, initQueue) :=
  C10_empty_dequeue_atomic initQueue rfl

/-! ## Hold-key counters

From the source: `#define KEY_HOLD_KEYS 7`, `#define KEY_HOLD_FRAMES 2`,
`char const keyHoldKeys[KEY_HOLD_KEYS]`, `int keyHold[KEY_HOLD_KEYS]`.
`pressKey` enqueues a DOWN event and arms the counter of a holdable key;
`decrementKeyCtrs` (called once per frame from `DG_DrawFrame`) decrements
each positive counter and enqueues a release when one reaches zero.
-/

/-- `#define KEY_HOLD_KEYS 7`. -/
def KEY_HOLD_KEYS : Nat := 7

/-- `#define KEY_HOLD_FRAMES 2`. -/
def KEY_HOLD_FRAMES : Int := 2

/-- `keyHoldKeys[j]`: `{KEY_FIRE, KEY_USE, KEY_ENTER, KEY_LEFTARROW,
KEY_RIGHTARROW, KEY_UPARROW, KEY_DOWNARROW}`.  The `KEY_*` constants come
from `doomkeys.h`, a doomgeneric header that is not among this repository's
two source files; the values used here are doomgeneric's standard ones
(0xa3, 0xa2, 13, 0xac, 0xae, 0xad, 0xaf) — the claims only rely on these
seven codes being pairwise distinct. -/
def keyHoldKeys (j : Nat) : Nat :=
  [0xa3, 0xa2, 13, 0xac, 0xae, 0xad, 0xaf].getD j 0

/-- The arming loop of `pressKey`: find the first index whose `keyHoldKeys`
entry equals `key`, set its counter to `KEY_HOLD_FRAMES`, and break. -/
def pressHoldAux : List Nat → Nat → (Nat → Int) → (Nat → Int)
  | [], _, kh => kh
  | j :: js, key, kh =>
    if keyHoldKeys j = key then fun x => if x = j then KEY_HOLD_FRAMES else kh x
    else pressHoldAux js key kh

/-- `pressKey(char key)`: enqueue the DOWN event `(1, key)` via
`addKeyToQueue(1, key)`, and arm the hold counter when `key` is holdable.
Returns the updated hold table and the list of events the call enqueues. -/
def pressKey (key : Nat) (kh : Nat → Int) : (Nat → Int) × List (Nat × Nat) :=
  (pressHoldAux (List.range KEY_HOLD_KEYS) key kh, [(1, key)])

/-- The loop of `decrementKeyCtrs` over the index list `is`: each counter
`keyHold[i] > 0` is decremented, and when it reaches exactly zero the release
`(0, keyHoldKeys[i])` is enqueued.  Returns the updated table and the events
in enqueue order. -/
def tickAux : List Nat → (Nat → Int) → (Nat → Int) × List (Nat × Nat)
  | [], kh => (kh, [])
  | i :: is, kh =>
    if kh i > 0 then
      if kh i - 1 = 0 then
        ((tickAux is (fun x => if x = i then kh i - 1 else kh x)).1,
         (0, keyHoldKeys i) :: (tickAux is (fun x => if x = i then kh i - 1 else kh x)).2)
      else tickAux is (fun x => if x = i then kh i - 1 else kh x)
    else tickAux is kh

/-- `decrementKeyCtrs()`: one frame tick over all `KEY_HOLD_KEYS` counters. -/
def decrementKeyCtrs (kh : Nat → Int) : (Nat → Int) × List (Nat × Nat) :=
  tickAux (List.range KEY_HOLD_KEYS) kh

/-! ## Hold-key lemmas -/

theorem keyHoldKeys_inj :
    ∀ j, j < KEY_HOLD_KEYS → ∀ i ∈ List.range KEY_HOLD_KEYS,
      keyHoldKeys i = keyHoldKeys j → i = j := by
  decide

theorem tickAux_fst_notmem (is : List Nat) (j : Nat) (hj : j ∉ is) (kh : Nat → Int) :
    (tickAux is kh).1 j = kh j := by
  induction is generalizing kh with
  | nil => rfl
  | cons i t ih =>
    have hij : j ≠ i := fun h => hj (h ▸ List.mem_cons_self i t)
    have hjt : j ∉ t := fun h => hj (List.mem_cons_of_mem i h)
    by_cases h : kh i > 0
    · by_cases h2 : kh i - 1 = 0
      · simp only [tickAux, if_pos h, if_pos h2, ih hjt]
        simp [hij]
      · simp only [tickAux, if_pos h, if_neg h2, ih hjt]
        simp [hij]
    · simp only [tickAux, if_neg h]
      exact ih hjt kh

theorem tickAux_fst_mem (is : List Nat) (j : Nat) (hnd : is.Nodup) (hj : j ∈ is)
    (kh : Nat → Int) :
    (tickAux is kh).1 j = if kh j > 0 then kh j - 1 else kh j := by
  induction is generalizing kh with
  | nil => cases hj
  | cons i t ih =>
    obtain ⟨hit, htnd⟩ := List.nodup_cons.mp hnd
    rcases List.mem_cons.mp hj with heq | hjt
    · rw [show i = j from heq.symm] at hit ⊢
      by_cases h : kh j > 0
      · by_cases h2 : kh j - 1 = 0
        · simp only [tickAux, if_pos h, if_pos h2, tickAux_fst_notmem t j hit]
          simp [h]
        · simp only [tickAux, if_pos h, if_neg h2, tickAux_fst_notmem t j hit]
          simp [h]
      · simp only [tickAux, if_neg h, tickAux_fst_notmem t j hit]
    · have hij : j ≠ i := fun h => hit (h ▸ hjt)
      by_cases h : kh i > 0
      · by_cases h2 : kh i - 1 = 0
        · simp only [tickAux, if_pos h, if_pos h2, ih htnd hjt]
          simp [hij]
        · simp only [tickAux, if_pos h, if_neg h2, ih htnd hjt]
          simp [hij]
      · simp only [tickAux, if_neg h]
        exact ih htnd hjt kh

theorem tickAux_count (is : List Nat) (j : Nat) (hnd : is.Nodup)
    (hinj : ∀ i ∈ is, keyHoldKeys i = keyHoldKeys j → i = j) (kh : Nat → Int) :
    ((tickAux is kh).2.count (0, keyHoldKeys j)) =
      if j ∈ is ∧ kh j = 1 then 1 else 0 := by
  induction is generalizing kh with
  | nil => simp [tickAux]
  | cons i t ih =>
    obtain ⟨hit, htnd⟩ := List.nodup_cons.mp hnd
    have htinj : ∀ x ∈ t, keyHoldKeys x = keyHoldKeys j → x = j :=
      fun x hx => hinj x (List.mem_cons_of_mem i hx)
    by_cases hio : j = i
    · subst hio
      by_cases h : kh j > 0
      · by_cases h2 : kh j - 1 = 0
        · have hk1 : kh j = 1 := by omega
          simp only [tickAux, if_pos h, if_pos h2, List.count_cons, ih htnd htinj]
          simp [hit, hk1]
        · have hk1 : kh j ≠ 1 := by omega
          simp only [tickAux, if_pos h, if_neg h2, ih htnd htinj]
          simp [hit, hk1]
      · have hk1 : kh j ≠ 1 := by omega
        simp only [tickAux, if_neg h, ih htnd htinj]
        simp [hit, hk1]
    · have hkne : keyHoldKeys i ≠ keyHoldKeys j :=
        fun he => hio (hinj i (List.mem_cons_self i t) he).symm
      have hpne : ((0 : Nat), keyHoldKeys j) ≠ ((0 : Nat), keyHoldKeys i) := by
        intro he
        exact hkne (congrArg Prod.snd he).symm
      by_cases h : kh i > 0
      · by_cases h2 : kh i - 1 = 0
        · simp only [tickAux, if_pos h, if_pos h2, List.count_cons, ih htnd htinj]
          simp [hio, hkne, beq_iff_eq]
        · simp only [tickAux, if_pos h, if_neg h2, ih htnd htinj]
          simp [hio]
      · simp only [tickAux, if_neg h, ih htnd htinj]
        simp [hio]

theorem pressHoldAux_arm (is : List Nat) (j : Nat) (kh : Nat → Int)
    (hj : j ∈ is) (hinj : ∀ i ∈ is, keyHoldKeys i = keyHoldKeys j → i = j) :
    pressHoldAux is (keyHoldKeys j) kh = fun x => if x = j then KEY_HOLD_FRAMES else kh x := by
  induction is with
  | nil => cases hj
  | cons i t ih =>
    by_cases h : keyHoldKeys i = keyHoldKeys j
    · have heq : i = j := hinj i (List.mem_cons_self i t) h
      subst heq
      simp [pressHoldAux, h]
    · have hij : i ≠ j := fun he => h (he ▸ rfl)
      have hjt : j ∈ t := by
        rcases List.mem_cons.mp hj with he | ht
        · exact absurd he.symm hij
        · exact ht
      simp only [pressHoldAux, if_neg h]
      exact ih hjt (fun x hx => hinj x (List.mem_cons_of_mem i hx))

theorem tickAux_noop (is : List Nat) (kh : Nat → Int) (h : ∀ i ∈ is, kh i ≤ 0) :
    tickAux is kh = (kh, []) := by
  induction is with
  | nil => rfl
  | cons i t ih =>
    have hle : ¬ kh i > 0 := by
      have := h i (List.mem_cons_self i t)
      omega
    simp only [tickAux, if_neg hle]
    exact ih (fun x hx => h x (List.mem_cons_of_mem i hx))

theorem decrementKeyCtrs_count (j : Nat) (hj : j < KEY_HOLD_KEYS) (kh : Nat → Int) :
    ((decrementKeyCtrs kh).2.count (0, keyHoldKeys j)) = if kh j = 1 then 1 else 0 := by
  unfold decrementKeyCtrs
  rw [tickAux_count (List.range KEY_HOLD_KEYS) j (List.nodup_range KEY_HOLD_KEYS)
    (keyHoldKeys_inj j hj)]
  simp [List.mem_range.mpr hj]

theorem decrementKeyCtrs_fst (j : Nat) (hj : j < KEY_HOLD_KEYS) (kh : Nat → Int) :
    (decrementKeyCtrs kh).1 j = if kh j > 0 then kh j - 1 else kh j := by
  unfold decrementKeyCtrs
  exact tickAux_fst_mem (List.range KEY_HOLD_KEYS) j (List.nodup_range KEY_HOLD_KEYS)
    (List.mem_range.mpr hj) kh

theorem pressKey_fst (j : Nat) (hj : j < KEY_HOLD_KEYS) (kh : Nat → Int) :
    (pressKey (keyHoldKeys j) kh).1 = fun x => if x = j then KEY_HOLD_FRAMES else kh x :=
  pressHoldAux_arm (List.range KEY_HOLD_KEYS) j kh (List.mem_range.mpr hj)
    (keyHoldKeys_inj j hj)

/-! ## Claim theorems: hold semantics -/

/-- C6: for a holdable key `K = keyHoldKeys j` whose counter starts at 0,
`pressKey(K)` followed by exactly `KEY_HOLD_FRAMES = 2` calls of
`decrementKeyCtrs` enqueues exactly one synthetic release `(0, K)`: none from
the press itself, none from the first tick, and exactly one from the final
tick. -/
theorem C6_hold_release_timing (j : Nat) (hj : j < KEY_HOLD_KEYS) (kh : Nat → Int)
    (h0 : kh j = 0) :
    ((pressKey (keyHoldKeys j) kh).2.count (0, keyHoldKeys j) = 0) ∧
    ((decrementKeyCtrs ((pressKey (keyHoldKeys j) kh).1)).2.count (0, keyHoldKeys j) = 0) ∧
    ((decrementKeyCtrs
        ((decrementKeyCtrs ((pressKey (keyHoldKeys j) kh).1)).1)).2.count
          (0, keyHoldKeys j) = 1) := by
  have hkh1 := pressKey_fst j hj kh
  refine ⟨by simp [pressKey], ?_, ?_⟩
  · rw [decrementKeyCtrs_count j hj, hkh1]
    simp [KEY_HOLD_FRAMES]
  · rw [decrementKeyCtrs_count j hj, decrementKeyCtrs_fst j hj, hkh1]
    simp [KEY_HOLD_FRAMES]

/-- Witness for C6 at `j = 0` (KEY_FIRE) with all counters zero. -/
theorem C6_hold_release_timing_witness :
    ((pressKey (keyHoldKeys 0) (fun _ => 0)).2.count (0, keyHoldKeys 0) = 0) ∧
    ((decrementKeyCtrs ((pressKey (keyHoldKeys 0) (fun _ => 0)).1)).2.count
        (0, keyHoldKeys 0) = 0) ∧
    ((decrementKeyCtrs
        ((decrementKeyCtrs ((pressKey (keyHoldKeys 0) (fun _ => 0)).1)).1)).2.count
          (0, keyHoldKeys 0) = 1) :=
  C6_hold_release_timing 0 (by decide) (fun _ => 0) rfl

/-- C7: re-pressing a holdable key `K = keyHoldKeys j` before its timer
expires resets it to the full `KEY_HOLD_FRAMES = 2`: after `pressKey(K)`, one
tick (`N - 1` ticks), `pressKey(K)` again, one further tick enqueues no
release for `K`, and exactly one more tick enqueues the release. -/
theorem C7_repress_resets_timer (j : Nat) (hj : j < KEY_HOLD_KEYS) (kh : Nat → Int) :
    ((decrementKeyCtrs ((pressKey (keyHoldKeys j) kh).1)).2.count (0, keyHoldKeys j) = 0) ∧
    ((decrementKeyCtrs
        ((pressKey (keyHoldKeys j)
          ((decrementKeyCtrs ((pressKey (keyHoldKeys j) kh).1)).1)).1)).2.count
            (0, keyHoldKeys j) = 0) ∧
    ((decrementKeyCtrs
        ((decrementKeyCtrs
          ((pressKey (keyHoldKeys j)
            ((decrementKeyCtrs ((pressKey (keyHoldKeys j) kh).1)).1)).1)).1)).2.count
              (0, keyHoldKeys j) = 1) := by
  have hkh1 := pressKey_fst j hj kh
  have hkh2j : (pressKey (keyHoldKeys j)
      ((decrementKeyCtrs ((pressKey (keyHoldKeys j) kh).1)).1)).1 j = KEY_HOLD_FRAMES := by
    rw [pressKey_fst j hj]
    simp
  refine ⟨?_, ?_, ?_⟩
  · rw [decrementKeyCtrs_count j hj, hkh1]
    simp [KEY_HOLD_FRAMES]
  · rw [decrementKeyCtrs_count j hj, hkh2j]
    simp [KEY_HOLD_FRAMES]
  · rw [decrementKeyCtrs_count j hj, decrementKeyCtrs_fst j hj, hkh2j]
    simp [KEY_HOLD_FRAMES]

/-- Witness for C7 at `j = 0` (KEY_FIRE) with all counters zero. -/
theorem C7_repress_resets_timer_witness :
    ((decrementKeyCtrs ((pressKey (keyHoldKeys 0) (fun _ => 0)).1)).2.count
        (0, keyHoldKeys 0) = 0) ∧
    ((decrementKeyCtrs
        ((pressKey (keyHoldKeys 0)
          ((decrementKeyCtrs ((pressKey (keyHoldKeys 0) (fun _ => 0)).1)).1)).1)).2.count
            (0, keyHoldKeys 0) = 0) ∧
    ((decrementKeyCtrs
        ((decrementKeyCtrs
          ((pressKey (keyHoldKeys 0)
            ((decrementKeyCtrs ((pressKey (keyHoldKeys 0) (fun _ => 0)).1)).1)).1)).1)).2.count
              (0, keyHoldKeys 0) = 1) :=
  C7_repress_resets_timer 0 (by decide) (fun _ => 0)

/-! ## The full per-frame state: queue plus hold table -/

/-- All mutable key state: the ring buffer and the `keyHold` counters. -/
structure SysState where
  kq : KQ
  keyHold : Nat → Int

/-- Fold a list of `(pressed, key)` events into the queue, in order. -/
def enqueueEvents (q : KQ) (evs : List (Nat × Nat)) : KQ :=
  evs.foldl (fun q e => addKeyToQueue e.1 e.2 q) q

/-- `decrementKeyCtrs()` acting on the whole key state: counters aged, due
releases enqueued via `addKeyToQueue(0, keyHoldKeys[i])`. -/
def decrementKeyCtrsS (s : SysState) : SysState :=
  { kq := enqueueEvents s.kq (decrementKeyCtrs s.keyHold).2
    keyHold := (decrementKeyCtrs s.keyHold).1 }

/-- `DG_DrawFrame()`: fills and flushes the output buffer (the emitted
characters are `drawFrameChars`) and then calls `decrementKeyCtrs()`, its
only effect on key state. -/
def DG_DrawFrame (resy resx : Nat) (pix : Nat → color_t) (s : SysState) :
    List Char × SysState :=
  (drawFrameChars resy resx pix, decrementKeyCtrsS s)

/-- A state with the KEY_FIRE hold counter armed at 2. -/
def armedState : SysState :=
  { kq := initQueue, keyHold := fun i => if i = 0 then 2 else 0 }

/-! ## Claim theorems: frame side effects -/

/-- C8 counterexample: `DG_DrawFrame` does change key state — from a state
whose first hold counter is 2, the `decrementKeyCtrs()` call at the end of
`DG_DrawFrame` decrements it to 1. -/
theorem C8_counterexample_hold_counter_changes :
    (DG_DrawFrame 1 1 (fun _ => blackPixel) armedState).2.keyHold 0 ≠
      armedState.keyHold 0 := by
  decide

/-- C8 (amended): a `DG_DrawFrame` call produces exactly the rendered byte
stream, and — provided no hold counter is positive, so the per-frame
`decrementKeyCtrs()` tick it ends with has nothing to do — leaves the key
queue, both cursors, and all hold counters unchanged. -/
theorem C8_draw_frame_effects (resy resx : Nat) (pix : Nat → color_t) (s : SysState)
    (h : ∀ i, i < KEY_HOLD_KEYS → s.keyHold i ≤ 0) :
    (DG_DrawFrame resy resx pix s).1 = drawFrameChars resy resx pix ∧
    (DG_DrawFrame resy resx pix s).2 = s := by
  refine ⟨rfl, ?_⟩
  have ht : tickAux (List.range KEY_HOLD_KEYS) s.keyHold = (s.keyHold, []) :=
    tickAux_noop _ _ (fun i hi => h i (List.mem_range.mp hi))
  show decrementKeyCtrsS s = s
  unfold decrementKeyCtrsS decrementKeyCtrs
  rw [ht]
  rfl

/-- Witness for C8 (amended) at the all-zero key state. -/
theorem C8_draw_frame_effects_witness :
    (DG_DrawFrame 1 1 (fun _ => blackPixel) ⟨initQueue, fun _ => 0⟩).1 =
      drawFrameChars 1 1 (fun _ => blackPixel) ∧
    (DG_DrawFrame 1 1 (fun _ => blackPixel) ⟨initQueue, fun _ => 0⟩).2 =
      ⟨initQueue, fun _ => 0⟩ :=
  C8_draw_frame_effects 1 1 (fun _ => blackPixel) ⟨initQueue, fun _ => 0⟩ (by decide)

end DoomAscii
